import Mathlib

/-!
Verification of the minefield v1 RPC service layer (`NodeToServiceNode`,
`CustomLeaderboard`, `Query`, `Check`, and the `queryHeap` used by the
leaderboard) against its natural-language specification.

The Go service file is embedded shallowly:

* `Bitset` models the roaring bitmap as a `Finset Nat`; `ToArray` is the
  ascending enumeration `toArray`.
* `Node`, `NodeCache`, `Storage` model `graph.Node`, `graph.NodeCache` and the
  in-memory storage contract the handlers call (`GetAllKeys`, `GetNodes`,
  `GetCaches`, `ToBeCached`); the storage never fails in this model.
* `graph.ParseAndExecute` is not part of the repository slice, so it is
  modelled from the spec (see `ParseAndExecute`), parameterised by an abstract
  script evaluator `Evaluator` for the parts the claims quantify over.
* The concurrency of `CustomLeaderboard` is made explicit: worker completion
  order is the `completionOrder` parameter, and `errSeen` says whether some
  worker error had already reached the buffered error channel when the
  handler performs its single nonblocking `select` on it.  A result of `none`
  models a call that never returns.
* `down`, `up`, `hpush`, `hpop`, `popAllF` are the Go `container/heap` functions
  (`down`, `up`, `heap.Push`, `heap.Pop`) specialised to `queryHeap`, whose
  `Less` compares only `len(Output)`, whose `Push` appends and whose `Pop`
  removes the last slice element.
-/

namespace MinefieldV1

deriving instance DecidableEq for Except

/-- A set of 32-bit node IDs (the roaring bitmap); IDs are modelled as `Nat`. -/
abbrev Bitset := Finset Nat

/-- `Bitset.ToArray`: the ascending array of members of the bitset (an
insertion sort of the underlying multiset; well defined because sorting is
invariant under permutation). -/
def toArray (bs : Bitset) : List Nat :=
  Quot.lift (fun l => List.insertionSort (· ≤ ·) l)
    (fun l1 l2 h => List.eq_of_perm_of_sorted
      (((List.perm_insertionSort _ l1).trans h).trans (List.perm_insertionSort _ l2).symm)
      (List.sorted_insertionSort _ l1) (List.sorted_insertionSort _ l2)) bs.val

/-- The `Metadata` payload of a node together with whether `json.Marshal`
succeeds on it (the only observable the service layer uses). -/
structure NodeMetadata where
  json : String
  marshalOk : Bool
deriving DecidableEq

/-- `graph.Node`: ID, name, type tag, metadata, and the two direct-adjacency
bitsets `Children` and `Parents`. -/
structure Node where
  ID : Nat
  Name : String
  Typ : String
  Metadata : NodeMetadata
  Children : Bitset
  Parents : Bitset
deriving DecidableEq

/-- `graph.NodeCache`: the transitive-closure bitsets stored per node. -/
structure NodeCache where
  nodeID : Nat
  allChildren : Bitset
  allParents : Bitset
deriving DecidableEq

/-- The storage state visible to the handlers: the extant nodes, the dirty
set (`ToBeCached`) and the cache records. -/
structure Storage where
  nodes : List Node
  dirty : List Nat
  caches : List NodeCache
deriving DecidableEq

/-- `storage.GetAllKeys()`: every extant node ID. -/
def getAllKeys (st : Storage) : List Nat := st.nodes.map (·.ID)

/-- `storage.GetNodes(keys)`: batched lookup preserving order. -/
def getNodes (st : Storage) (keys : List Nat) : List Node :=
  keys.filterMap (fun k => st.nodes.find? (fun n => n.ID == k))

/-- `storage.GetCaches(keys)`: batched cache lookup. -/
def getCaches (st : Storage) (keys : List Nat) : List NodeCache :=
  keys.filterMap (fun k => st.caches.find? (fun c => c.nodeID == k))

/-- `storage.ToBeCached()`: the dirty set. -/
def toBeCached (st : Storage) : List Nat := st.dirty

/-- The error kinds surfaced by the modelled handlers (spec §7). -/
inductive Err where
  | notCached
  | marshalErr
  | nilRequest
  | cancelled
  | invalidArgument
  | parseErr (msg : String)
  | unknownNode (name : String)
deriving DecidableEq

/-- Errors a script evaluation itself can produce (spec §4.5 / §7). -/
inductive EvalErr where
  | parse (msg : String)
  | unknown (name : String)
deriving DecidableEq

/-- Lifting a script-evaluation error to the service error surface. -/
def liftEvalErr : EvalErr → Err
  | .parse msg => .parseErr msg
  | .unknown name => .unknownNode name

/-- An abstract script evaluator: script, focus-node name, loaded nodes and
caches.  The claims quantify over it; it stands for the parsing/evaluation
part of `graph.ParseAndExecute`, which is outside the repository slice. -/
abbrev Evaluator := String → String → List Node → List NodeCache → Except EvalErr Bitset

/-- Modelled from the spec: `graph.ParseAndExecute` is not in the repository
slice (only its callers are).  Per spec §4.5, evaluation "requires the dirty
set to be empty at evaluation time (checked once at entry), otherwise fails
with `NotCached`"; the callers communicate dirty-set emptiness through the
`isCached` flag (`len(cacheStack) == 0` in the Go handlers).  The evaluation
proper is the abstract `eval`. -/
def ParseAndExecute (eval : Evaluator) (script : String) (focus : String)
    (nodes : List Node) (caches : List NodeCache) (isCached : Bool) :
    Except Err Bitset :=
  if isCached then
    match eval script focus nodes caches with
    | .ok bs => .ok bs
    | .error e => .error (liftEvalErr e)
  else .error .notCached

/-- `json.Marshal(node.Metadata)` as observed by the service layer. -/
def jsonMarshal (m : NodeMetadata) : Except Err String :=
  if m.marshalOk then .ok m.json else .error .marshalErr

/-- `service.Node`: the wire representation produced by `NodeToServiceNode`. -/
structure ServiceNode where
  Id : Nat
  Name : String
  Typ : String
  MetadataBytes : String
  Dependencies : List Nat
  Dependents : List Nat
deriving DecidableEq

/-- `NodeToServiceNode`: marshals the metadata and copies the identity fields;
`Dependencies` and `Dependents` are the ascending arrays of the direct
`Children` and `Parents` bitsets. -/
def nodeToServiceNode (node : Node) : Except Err ServiceNode :=
  match jsonMarshal node.Metadata with
  | .error e => .error e
  | .ok data =>
    .ok { Id := node.ID, Name := node.Name, Typ := node.Typ,
          MetadataBytes := data,
          Dependencies := toArray node.Children,
          Dependents := toArray node.Parents }

/-- The Go `Query` struct: a node together with the output array of its
evaluation (`execute.ToArray()`). -/
structure Query where
  Node : Node
  Output : List Nat
deriving DecidableEq

instance : Inhabited NodeMetadata := ⟨⟨"", true⟩⟩

instance : Inhabited Node := ⟨⟨0, "", "", default, ∅, ∅⟩⟩

instance : Inhabited Query := ⟨⟨default, []⟩⟩

/-- `service.Query`: a leaderboard entry on the wire. -/
structure SQuery where
  Node : ServiceNode
  Output : List Nat
deriving DecidableEq

/-- The key `queryHeap.Less` compares: `len(h[i].Output)`. -/
def qKey (q : Query) : Nat := q.Output.length

/-- Bounds-safe read of the heap slice (all uses are in bounds). -/
def aget (a : Array Query) (i : Nat) : Query :=
  if h : i < a.size then a[i] else default

/-- `queryHeap.Swap`: exchange two slice entries (identity when out of
bounds; all uses are in bounds). -/
def aswap (a : Array Query) (i j : Nat) : Array Query :=
  if h : i < a.size ∧ j < a.size then a.swap ⟨i, h.1⟩ ⟨j, h.2⟩ else a

/-- The parent index in the implicit binary heap: `(j - 1) / 2` (the Go assignment
`i := (j - 1) / 2` in `up`; note `(0 - 1) / 2 = 0` both in Go ints and in
`Nat`). -/
def par (j : Nat) : Nat := (j - 1) / 2

/-- The child index `j` selected by `down` of `container/heap`: the second
child `2*i+2` when it exists and is strictly `Less` than the first child
`2*i+1`, otherwise the first child. -/
def child (a : Array Query) (i n : Nat) : Nat :=
  if 2 * i + 2 < n ∧ qKey (aget a (2 * i + 2)) < qKey (aget a (2 * i + 1))
  then 2 * i + 2 else 2 * i + 1

/-- The `down` of `container/heap` specialised to `queryHeap`: sift the entry at
`i` down within the first `n` entries of the slice.  The Go loop terminates
because the index strictly increases below `n`; here the iteration count is
made explicit as a `fuel` argument (callers pass `n`, an upper bound on the
number of iterations, so the fuel never runs out). -/
def down : Nat → Array Query → Nat → Nat → Array Query
  | 0, a, _, _ => a
  | fuel + 1, a, i, n =>
    if 2 * i + 1 < n then
      if qKey (aget a (child a i n)) < qKey (aget a i) then
        down fuel (aswap a i (child a i n)) (child a i n) n
      else a
    else a

/-- The `up` of `container/heap` specialised to `queryHeap`: sift the entry at `j`
up towards the root (stops when `i == j`, i.e. `j == 0`, or when the entry is
not strictly `Less` than its parent).  The Go loop terminates because the
index strictly decreases; the iteration count is an explicit `fuel` (callers
pass the starting index, an upper bound). -/
def up : Nat → Array Query → Nat → Array Query
  | 0, a, _ => a
  | fuel + 1, a, j =>
    if par j = j ∨ ¬ qKey (aget a j) < qKey (aget a (par j)) then a
    else up fuel (aswap a (par j) j) (par j)

/-- `heap.Push` on a `queryHeap`: append (the `Push` of the heap itself) then sift
the new last entry up. -/
def hpush (a : Array Query) (q : Query) : Array Query :=
  up a.size (a.push q) a.size

/-- `heap.Pop` on a `queryHeap`: swap the root with the last of the first
`n+1` entries, sift the root down within `n`, then remove and return the last
slice entry (the `Pop` of the heap itself). -/
def hpop (a : Array Query) : Query × Array Query :=
  let n := a.size - 1
  let b := down n (aswap a 0 n) 0 n
  (aget b n, b.pop)

/-- The extraction loop of `CustomLeaderboard`: pop exactly `fuel` times
(the handler pops once per slot of the preallocated result slice). -/
def popAllF : Nat → Array Query → List Query
  | 0, _ => []
  | fuel + 1, a => (hpop a).1 :: popAllF fuel (hpop a).2

/-- The named nodes of the storage: `CustomLeaderboard` skips nodes whose
name is empty. -/
def namedNodes (st : Storage) : List Node :=
  (getNodes st (getAllKeys st)).filter (fun n => !(n.Name == ""))

/-- Embedding of the `CustomLeaderboard` handler.

The sequential skeleton follows the Go source: dirty-set gate, batched loads,
fan-out of one evaluation per named node under a semaphore of capacity `K`,
a single nonblocking check of the error channel, drain of the result channel
into the `queryHeap`, and extraction into the result slice from the back.

Concurrency is made explicit: `completionOrder` is the order in which the
workers finish (each sending to the result or error channel), and `errSeen`
says whether at least one error had been delivered when the nonblocking
`select` runs.  `ctxCancelled` mirrors the `ctx` parameter of the handler, which
the Go body never consults.  `none` models a call that never returns: with
`K == 0` the semaphore channel is unbuffered and the handler sends on it
before spawning the worker that would receive, so the first admission of a
named node blocks forever. -/
def CustomLeaderboard (ctxCancelled : Bool) (eval : Evaluator) (st : Storage)
    (script : String) (K : Nat) (completionOrder : List Node) (errSeen : Bool) :
    Option (Except Err (List SQuery)) :=
  if (toBeCached st).isEmpty then
    let keys := getAllKeys st
    let nodes := getNodes st keys
    let caches := getCaches st keys
    let cacheStack := toBeCached st
    let named := nodes.filter (fun n => !(n.Name == ""))
    if K == 0 && !named.isEmpty then none
    else
      let outcomes := completionOrder.map (fun n =>
        (n, ParseAndExecute eval script n.Name nodes caches cacheStack.isEmpty))
      let failures := outcomes.filterMap (fun p =>
        match p.2 with | .error e => some e | .ok _ => none)
      let successes := outcomes.filterMap (fun p =>
        match p.2 with
        | .ok bs => some { Node := p.1, Output := toArray bs }
        | .error _ => none)
      match errSeen, failures with
      | true, e :: _ => some (.error e)
      | _, _ =>
        let h := successes.foldl hpush #[]
        match (popAllF h.size h).mapM (fun q =>
            (nodeToServiceNode q.Node).map (fun sn => SQuery.mk sn q.Output)) with
        | .error e => some (.error e)
        | .ok l => some (.ok l.reverse)
  else some (.error .notCached)

/-- Embedding of the `Query` handler (`QueryOp` because the Go file also has
a `Query` struct): nil-request guard, batched loads, evaluation with the
empty focus name, then resolution of the output bitset back into nodes. -/
def QueryOp (eval : Evaluator) (st : Storage) (req : Option String) :
    Except Err (List ServiceNode) :=
  match req with
  | none => .error .nilRequest
  | some script =>
    let keys := getAllKeys st
    let nodes := getNodes st keys
    let caches := getCaches st keys
    let cacheStack := toBeCached st
    match ParseAndExecute eval script "" nodes caches cacheStack.isEmpty with
    | .error e => .error e
    | .ok result =>
      let outputNodes := getNodes st (toArray result)
      outputNodes.mapM nodeToServiceNode

/-- `service.HealthCheckResponse`. -/
structure HealthCheckResponse where
  Status : String
deriving DecidableEq

/-- Embedding of the `Check` handler. -/
def Check (_st : Storage) (_req : Unit) : Except Err HealthCheckResponse :=
  .ok { Status := "ok" }

/-- The wire node produced by a successful `NodeToServiceNode` conversion. -/
def serviceNodeOf (n : Node) : ServiceNode :=
  ⟨n.ID, n.Name, n.Typ, n.Metadata.json, toArray n.Children, toArray n.Parents⟩

/-- The output array a successful evaluation of `script` with focus `n`
produces inside `CustomLeaderboard` (empty list if the evaluation fails). -/
def evalOutput (eval : Evaluator) (st : Storage) (script : String) (n : Node) : List Nat :=
  match eval script n.Name (getNodes st (getAllKeys st)) (getCaches st (getAllKeys st)) with
  | .ok bs => toArray bs
  | .error _ => []

/-- The min-heap invariant of `queryHeap` on the first `n` slice entries:
every non-root entry is `≥` its parent under the `Less` key. -/
def IsHeapN (a : Array Query) (n : Nat) : Prop :=
  ∀ j, 0 < j → j < n → qKey (aget a (par j)) ≤ qKey (aget a j)

/-- Precondition of `down a n i`: the heap invariant may fail only at the
children of `i`, and the children of `i` still dominate the parent of `i`. -/
def DownInv (a : Array Query) (n i : Nat) : Prop :=
  (∀ j, 0 < j → j < n → par j ≠ i → qKey (aget a (par j)) ≤ qKey (aget a j)) ∧
  (∀ j, 0 < j → j < n → par j = i → 0 < i →
    qKey (aget a (par i)) ≤ qKey (aget a j))

/-- Precondition of `up a j`: the heap invariant may fail only at `j`
itself, and the children of `j` still dominate the parent of `j`. -/
def UpInv (a : Array Query) (n j : Nat) : Prop :=
  (∀ k, 0 < k → k < n → k ≠ j → qKey (aget a (par k)) ≤ qKey (aget a k)) ∧
  (∀ c, 0 < c → c < n → par c = j → 0 < j →
    qKey (aget a (par j)) ≤ qKey (aget a c))

/-- A script evaluator that always succeeds with the empty bitset (used to
exercise the handlers on concrete inputs). -/
def evalEmpty : Evaluator := fun _ _ _ _ => .ok ∅

/-- A script evaluator that fails exactly when the focus node is `"B"`. -/
def evalFailB : Evaluator := fun _ focus _ _ =>
  if focus == "B" then .error (.unknown "B") else .ok ∅

/-- Concrete node `A`. -/
def nA : Node := ⟨1, "A", "library", default, ∅, ∅⟩

/-- Concrete node `B`. -/
def nB : Node := ⟨2, "B", "library", default, ∅, ∅⟩

/-- Concrete node `C`. -/
def nC : Node := ⟨3, "C", "library", default, ∅, ∅⟩

/-- Concrete node with an empty name (skipped by the leaderboard). -/
def nE : Node := ⟨4, "", "library", default, ∅, ∅⟩

/-- A cached two-node storage holding `B` and `C`. -/
def stBC : Storage := ⟨[nB, nC], [], []⟩

/-- A cached storage holding `A`, `B`. -/
def stAB : Storage := ⟨[nA, nB], [], []⟩

/-- A cached storage holding `A` and an empty-named node. -/
def stAE : Storage := ⟨[nA, nE], [], []⟩

/-- A cached one-node storage holding `A`. -/
def stA : Storage := ⟨[nA], [], []⟩

/-- A storage whose dirty set is non-empty. -/
def stDirty : Storage := ⟨[nA], [1], []⟩

end MinefieldV1

namespace MinefieldV1

theorem aget_eq_getElem (a : Array Query) (i : Nat) (h : i < a.size) : aget a i = a[i] := by
  simp [aget, h]

theorem size_aswap (a : Array Query) (i j : Nat) : (aswap a i j).size = a.size := by
  unfold aswap
  split <;> simp

theorem aget_aswap (a : Array Query) {i j : Nat} (hi : i < a.size) (hj : j < a.size) (k : Nat) :
    aget (aswap a i j) k =
      if k = i then aget a j else if k = j then aget a i else aget a k := by
  unfold aswap
  rw [dif_pos ⟨hi, hj⟩]
  by_cases hk : k < a.size
  · rw [aget_eq_getElem _ _ (by simpa using hk), Array.getElem_swap]
    by_cases h1 : k = i
    · simp [h1, aget_eq_getElem _ _ hj]
    · by_cases h2 : k = j
      · simp only [h2]
        simp [h1, h2, aget_eq_getElem _ _ hi, aget_eq_getElem _ _ hj]
      · simp [h1, h2, aget_eq_getElem _ _ hk]
  · have h1 : k ≠ i := by omega
    have h2 : k ≠ j := by omega
    rw [if_neg h1, if_neg h2]
    unfold aget
    rw [dif_neg (by simpa using hk), dif_neg hk]

theorem count_set {α : Type _} [DecidableEq α] :
    ∀ (l : List α) (i : Nat), i < l.length → ∀ (v x : α),
      (l.set i v).count x + (if l[i]? = some x then 1 else 0) =
        l.count x + (if v = x then 1 else 0) := by
  intro l
  induction l with
  | nil => intro i h; simp at h
  | cons a t ih =>
    intro i h v x
    cases i with
    | zero =>
      simp only [List.set_cons_zero, List.getElem?_cons_zero, List.count_cons]
      by_cases hv : v = x <;> by_cases ha : a = x <;>
        simp [hv, ha, beq_iff_eq] <;> omega
    | succ n =>
      have hn : n < t.length := by simpa using h
      have := ih n hn v x
      simp only [List.set_cons_succ, List.getElem?_cons_succ, List.count_cons]
      by_cases ha : a = x <;> simp [ha, beq_iff_eq] <;> omega

theorem set_self_of_getElem {α : Type _} (l : List α) (i : Nat) (x : α)
    (hx : l[i]? = some x) : l.set i x = l := by
  apply List.ext_getElem?
  intro n
  by_cases hn : n = i
  · subst hn
    have hlen : n < l.length := by
      by_contra hcon
      rw [List.getElem?_eq_none (by omega)] at hx
      exact Option.noConfusion hx
    rw [List.getElem?_set_self hlen, hx]
  · rw [List.getElem?_set_ne (fun h => hn h.symm)]

theorem set_set_swap_perm {α : Type _} [DecidableEq α] (l : List α) (i j : Nat)
    (hi : i < l.length) (hj : j < l.length) (x y : α)
    (hx : l[i]? = some x) (hy : l[j]? = some y) :
    ((l.set i y).set j x).Perm l := by
  rcases eq_or_ne i j with rfl | hne
  · have hxy : x = y := by
      rw [hx] at hy
      exact (Option.some.injEq _ _ ▸ hy)
    rw [List.set_set, set_self_of_getElem l i x hx]
  · rw [List.perm_iff_count]
    intro z
    have hjlen : j < (l.set i y).length := by simpa using hj
    have c1 := count_set l i hi y z
    have c2 := count_set (l.set i y) j hjlen x z
    rw [List.getElem?_set_ne hne, hy] at c2
    rw [hx] at c1
    by_cases h1 : x = z <;> by_cases h2 : y = z <;>
      simp only [h1, h2, Option.some.injEq, if_pos, if_neg, if_true, if_false] at c1 c2 ⊢ <;>
      simp_all <;> omega

theorem aswap_perm (a : Array Query) (i j : Nat) : (aswap a i j).toList.Perm a.toList := by
  unfold aswap
  split
  next h =>
    rw [Array.toList_swap]
    have hlen : a.toList.length = a.size := rfl
    apply set_set_swap_perm a.toList i j (by omega) (by omega)
    · rw [List.getElem?_eq_getElem (by omega)]
      rfl
    · rw [List.getElem?_eq_getElem (by omega)]
      rfl
  next => exact List.Perm.refl _

theorem child_facts (a : Array Query) (i n : Nat) (h : 2 * i + 1 < n) :
    i < child a i n ∧ child a i n < n ∧
      qKey (aget a (child a i n)) ≤ qKey (aget a (2 * i + 1)) ∧
      (2 * i + 2 < n → qKey (aget a (child a i n)) ≤ qKey (aget a (2 * i + 2))) ∧
      (child a i n = 2 * i + 1 ∨ child a i n = 2 * i + 2) := by
  unfold child
  split
  next hc =>
    exact ⟨by omega, hc.1, le_of_lt hc.2, fun _ => le_refl _, Or.inr rfl⟩
  next hc =>
    push_neg at hc
    refine ⟨by omega, h, le_refl _, fun h2 => le_of_not_lt (fun hcon => ?_), Or.inl rfl⟩
    exact absurd hcon (not_lt_of_le (le_of_not_lt (fun hcon2 => absurd (hc h2) (not_le_of_lt hcon2))))

theorem heap_of_downInv_stop (a : Array Query) (i n : Nat) (hInv : DownInv a n i)
    (hstop : ∀ c, (c = 2 * i + 1 ∨ c = 2 * i + 2) → c < n →
      qKey (aget a i) ≤ qKey (aget a c)) : IsHeapN a n := by
  intro k h0 hkn
  by_cases hp : par k = i
  · have hck : k = 2 * i + 1 ∨ k = 2 * i + 2 := by unfold par at hp; omega
    rw [hp]
    exact hstop k hck hkn
  · exact hInv.1 k h0 hkn hp

theorem downInv_step (a : Array Query) (i n j : Nat) (hn : n ≤ a.size)
    (hjor : j = 2 * i + 1 ∨ j = 2 * i + 2) (hjn : j < n)
    (hj1 : qKey (aget a j) ≤ qKey (aget a (2 * i + 1)))
    (hj2 : 2 * i + 2 < n → qKey (aget a j) ≤ qKey (aget a (2 * i + 2)))
    (hInv : DownInv a n i)
    (hlt : qKey (aget a j) < qKey (aget a i)) :
    DownInv (aswap a i j) n j := by
  have hij : i < j := by omega
  have hin : i < a.size := by omega
  have hjs : j < a.size := by omega
  have hb := aget_aswap a hin hjs
  constructor
  · intro k h0 hkn hpk
    by_cases hki : k = i
    · subst hki
      have h2 := hInv.2 j (by omega) hjn (by unfold par; omega) (by omega)
      rw [hb k, hb (par k)]
      rw [if_neg (by unfold par; omega), if_neg (by unfold par at *; omega),
        if_pos rfl]
      exact h2
    · by_cases hkj : k = j
      · subst hkj
        have hpkk : par k = i := by unfold par; omega
        rw [hb k, hb (par k), hpkk]
        rw [if_pos rfl, if_neg hki, if_pos rfl]
        exact le_of_lt hlt
      · by_cases hpi : par k = i
        · have hck : k = 2 * i + 1 ∨ k = 2 * i + 2 := by unfold par at hpi; omega
          rw [hb k, hb (par k), hpi]
          rw [if_pos rfl, if_neg hki, if_neg hkj]
          rcases hck with hck | hck
          · rw [hck]; exact hj1
          · rw [hck]; exact hj2 (by omega)
        · rw [hb k, hb (par k)]
          rw [if_neg hpi, if_neg hpk, if_neg hki, if_neg hkj]
          exact hInv.1 k h0 hkn hpi
  · intro c h0 hcn hpc _hj0
    have hpj : par j = i := by unfold par; omega
    have hcj : j < c := by unfold par at hpc; omega
    rw [hb c, hb (par j), hpj]
    rw [if_pos rfl, if_neg (by omega), if_neg (by omega)]
    have hrest := hInv.1 c h0 hcn (by omega)
    rw [hpc] at hrest
    exact hrest

theorem down_spec (fuel : Nat) : ∀ (a : Array Query) (i n : Nat), n - i ≤ fuel →
    n ≤ a.size → DownInv a n i →
    IsHeapN (down fuel a i n) n ∧ (down fuel a i n).size = a.size ∧
      (down fuel a i n).toList.Perm a.toList ∧
      ∀ k, n ≤ k → aget (down fuel a i n) k = aget a k := by
  induction fuel with
  | zero =>
    intro a i n hfuel hn hInv
    refine ⟨?_, rfl, List.Perm.refl _, fun k _ => rfl⟩
    exact heap_of_downInv_stop a i n hInv (fun c hc hcn => by omega)
  | succ f ih =>
    intro a i n hfuel hn hInv
    rw [down]
    split
    next h =>
      obtain ⟨hij, hjn, hj1, hj2, hjor⟩ := child_facts a i n h
      split
      next hlt =>
        have hstep := downInv_step a i n (child a i n) hn hjor hjn hj1 hj2 hInv hlt
        have hsz : (aswap a i (child a i n)).size = a.size := size_aswap a i (child a i n)
        obtain ⟨r1, r2, r3, r4⟩ := ih (aswap a i (child a i n)) (child a i n) n
          (by omega) (by omega) hstep
        refine ⟨r1, by rw [r2, hsz], r3.trans (aswap_perm a i (child a i n)), ?_⟩
        intro k hk
        rw [r4 k hk]
        rw [aget_aswap a (by omega) (by omega) k]
        rw [if_neg (by omega), if_neg (by omega)]
      next hlt =>
        refine ⟨?_, rfl, List.Perm.refl _, fun k _ => rfl⟩
        apply heap_of_downInv_stop a i n hInv
        intro c hc hcn
        have hle : qKey (aget a i) ≤ qKey (aget a (child a i n)) := le_of_not_lt hlt
        rcases hc with hc | hc
        · subst hc; exact le_trans hle hj1
        · subst hc; exact le_trans hle (hj2 hcn)
    next h =>
      refine ⟨?_, rfl, List.Perm.refl _, fun k _ => rfl⟩
      exact heap_of_downInv_stop a i n hInv (fun c hc hcn => by omega)

theorem heap_root_min (a : Array Query) (n : Nat) (h : IsHeapN a n) :
    ∀ j, j < n → qKey (aget a 0) ≤ qKey (aget a j) := by
  intro j
  induction j using Nat.strong_induction_on with
  | _ j ih =>
    intro hj
    cases Nat.eq_zero_or_pos j with
    | inl h0 => subst h0; exact le_refl _
    | inr hpos =>
      have hp : par j < j := by unfold par; omega
      exact le_trans (ih (par j) hp (by omega)) (h j hpos hj)

theorem root_min_mem (a : Array Query) (h : IsHeapN a a.size) (x : Query)
    (hx : x ∈ a.toList) : qKey (aget a 0) ≤ qKey x := by
  obtain ⟨k, hk, hkx⟩ := List.mem_iff_getElem.mp hx
  have hks : k < a.size := hk
  have : aget a k = x := by rw [aget_eq_getElem a k hks]; exact hkx
  rw [← this]
  exact heap_root_min a a.size h k hks

theorem upInv_step (a : Array Query) (n j i : Nat) (hn : n ≤ a.size) (hjn : j < n)
    (hj0 : 0 < j) (hpj : par j = i) (hInv : UpInv a n j)
    (hlt : qKey (aget a j) < qKey (aget a i)) :
    UpInv (aswap a i j) n i := by
  have hij : i < j := by unfold par at hpj; omega
  have hin : i < a.size := by omega
  have hjs : j < a.size := by omega
  have hb := aget_aswap a hin hjs
  have bI : aget (aswap a i j) i = aget a j := by rw [hb i, if_pos rfl]
  have bJ : aget (aswap a i j) j = aget a i := by
    rw [hb j, if_neg (by omega), if_pos rfl]
  have bO : ∀ k, k ≠ i → k ≠ j → aget (aswap a i j) k = aget a k := by
    intro k h1 h2
    rw [hb k, if_neg h1, if_neg h2]
  constructor
  · intro k h0 hkn hki
    by_cases hkj : k = j
    · subst hkj
      rw [hpj, bI, bJ]
      exact le_of_lt hlt
    · by_cases hpkj : par k = j
      · have hkgt : j < k := by unfold par at hpkj; omega
        rw [hpkj, bJ, bO k hki hkj]
        have h2 := hInv.2 k h0 hkn hpkj hj0
        rw [hpj] at h2
        exact h2
      · by_cases hpki : par k = i
        · rw [hpki, bI, bO k hki hkj]
          have h2 := hInv.1 k h0 hkn hkj
          rw [hpki] at h2
          exact le_trans (le_of_lt hlt) h2
        · rw [bO (par k) hpki hpkj, bO k hki hkj]
          exact hInv.1 k h0 hkn hkj
  · intro c h0 hcn hpc hi0
    have hpii : par i < i := by unfold par; omega
    rw [bO (par i) (by omega) (by omega)]
    have h1 := hInv.1 i hi0 (by omega) (by omega)
    by_cases hcj : c = j
    · subst hcj
      rw [bJ]
      exact h1
    · have hci : i < c := by unfold par at hpc; omega
      rw [bO c (by omega) hcj]
      have h2 := hInv.1 c h0 hcn hcj
      rw [hpc] at h2
      exact le_trans h1 h2

theorem heap_of_upInv_stop (a : Array Query) (j n : Nat) (hInv : UpInv a n j)
    (hstop : 0 < j → j < n → qKey (aget a (par j)) ≤ qKey (aget a j)) :
    IsHeapN a n := by
  intro k h0 hkn
  by_cases hkj : k = j
  · subst hkj
    exact hstop h0 hkn
  · exact hInv.1 k h0 hkn hkj

theorem up_spec (fuel : Nat) : ∀ (a : Array Query) (j n : Nat), j ≤ fuel → j < n →
    n ≤ a.size → UpInv a n j →
    IsHeapN (up fuel a j) n ∧ (up fuel a j).size = a.size ∧
      (up fuel a j).toList.Perm a.toList := by
  induction fuel with
  | zero =>
    intro a j n hfuel hjn hn hInv
    have hj0 : j = 0 := by omega
    subst hj0
    refine ⟨?_, rfl, List.Perm.refl _⟩
    exact heap_of_upInv_stop a 0 n hInv (fun h0 _ => absurd h0 (lt_irrefl 0))
  | succ f ih =>
    intro a j n hfuel hjn hn hInv
    rw [up]
    split
    next hstop =>
      refine ⟨?_, rfl, List.Perm.refl _⟩
      apply heap_of_upInv_stop a j n hInv
      intro h0 hkn
      rcases hstop with hstop | hstop
      · exfalso
        unfold par at hstop
        omega
      · exact le_of_not_lt hstop
    next hstop =>
      push_neg at hstop
      obtain ⟨hne, hlt⟩ := hstop
      have hj0 : 0 < j := by
        by_contra hcon
        have : j = 0 := by omega
        subst this
        exact hne (by unfold par; omega)
      have hpj_lt : par j < j := by unfold par; omega
      have hstep := upInv_step a n j (par j) hn hjn hj0 rfl hInv hlt
      obtain ⟨r1, r2, r3⟩ := ih (aswap a (par j) j) (par j) n (by omega)
        (by omega) (by rw [size_aswap]; omega) hstep
      exact ⟨r1, by rw [r2, size_aswap], r3.trans (aswap_perm a (par j) j)⟩

theorem aget_push_lt (a : Array Query) (q : Query) (k : Nat) (hk : k < a.size) :
    aget (a.push q) k = aget a k := by
  unfold aget
  rw [dif_pos (by simp; omega), dif_pos hk]
  exact Array.getElem_push_lt a q k hk

theorem upInv_push (a : Array Query) (q : Query) (h : IsHeapN a a.size) :
    UpInv (a.push q) (a.push q).size a.size := by
  constructor
  · intro k h0 hkn hkj
    have hks : k < a.size := by simp at hkn; omega
    have hpk : par k < a.size := by unfold par; omega
    rw [aget_push_lt _ _ _ hks, aget_push_lt _ _ _ hpk]
    exact h k h0 hks
  · intro c h0 hcn hpc hj0
    exfalso
    unfold par at hpc
    simp at hcn
    omega

theorem hpush_spec (a : Array Query) (q : Query) (h : IsHeapN a a.size) :
    IsHeapN (hpush a q) (hpush a q).size ∧ (hpush a q).size = a.size + 1 ∧
      (hpush a q).toList.Perm (q :: a.toList) := by
  obtain ⟨r1, r2, r3⟩ := up_spec a.size (a.push q) a.size ((a.push q).size)
    (le_refl _) (by simp) (by simp) (upInv_push a q h)
  have hsz : (hpush a q).size = a.size + 1 := by
    unfold hpush
    rw [r2]
    simp
  refine ⟨?_, hsz, ?_⟩
  · unfold hpush
    have hup : (up a.size (a.push q) a.size).size = (a.push q).size := by rw [r2]
    rw [show (up a.size (a.push q) a.size).size = ((a.push q)).size from hup]
    exact r1
  · unfold hpush
    refine r3.trans ?_
    rw [Array.push_toList]
    exact List.perm_append_singleton q a.toList

theorem foldl_hpush_spec (l : List Query) : ∀ (a : Array Query), IsHeapN a a.size →
    IsHeapN (l.foldl hpush a) (l.foldl hpush a).size ∧
      (l.foldl hpush a).toList.Perm (l ++ a.toList) := by
  induction l with
  | nil => intro a h; exact ⟨h, by simp⟩
  | cons q t ih =>
    intro a h
    obtain ⟨p1, p2, p3⟩ := hpush_spec a q h
    obtain ⟨q1, q2⟩ := ih (hpush a q) p1
    refine ⟨q1, ?_⟩
    exact q2.trans ((List.Perm.append_left t p3).trans List.perm_middle)

theorem aget_pop (b : Array Query) (k : Nat) (hk : k < b.size - 1) :
    aget b.pop k = aget b k := by
  unfold aget
  rw [dif_pos (by simp; omega), dif_pos (by omega)]
  simp

theorem hpop_spec (a : Array Query) (h0 : 0 < a.size) (h : IsHeapN a a.size) :
    (hpop a).2.size = a.size - 1 ∧ IsHeapN (hpop a).2 (hpop a).2.size ∧
      ((hpop a).1 :: (hpop a).2.toList).Perm a.toList ∧
      ∀ x ∈ (hpop a).2.toList, qKey (hpop a).1 ≤ qKey x := by
  have hms : a.size - 1 < a.size := by omega
  have hinv : DownInv (aswap a 0 (a.size - 1)) (a.size - 1) 0 := by
    constructor
    · intro k h0k hkm hpk
      rw [aget_aswap a h0 hms k, aget_aswap a h0 hms (par k)]
      have hpklt : par k < k := by unfold par; omega
      rw [if_neg (by omega), if_neg (by omega), if_neg (by omega), if_neg (by omega)]
      exact h k h0k (by omega)
    · intro k _ _ _ hcon
      exact absurd hcon (lt_irrefl 0)
  obtain ⟨bheap, bsize, bperm, bout⟩ := down_spec (a.size - 1) (aswap a 0 (a.size - 1)) 0
    (a.size - 1) (by omega) (by rw [size_aswap]; omega) hinv
  set D := down (a.size - 1) (aswap a 0 (a.size - 1)) 0 (a.size - 1) with hD
  have hbsz : D.size = a.size := by
    rw [bsize, size_aswap]
  have hval : aget D (a.size - 1) = aget a 0 := by
    rw [bout (a.size - 1) (le_refl _), aget_aswap a h0 hms (a.size - 1)]
    by_cases hm0 : a.size - 1 = 0
    · rw [if_pos hm0, hm0]
    · rw [if_neg hm0, if_pos rfl]
  have hfst : (hpop a).1 = aget a 0 := by
    show aget D (a.size - 1) = aget a 0
    exact hval
  have hsnd : (hpop a).2 = D.pop := rfl
  have hlen : D.toList.length = a.size := by
    have h2 : D.toList.length = D.size := by simp
    rw [h2, hbsz]
  refine ⟨?_, ?_, ?_, ?_⟩
  · rw [hsnd]
    simp [hbsz]
  · rw [hsnd]
    intro k h0k hkn
    simp only [Array.size_pop, hbsz] at hkn
    have hks : k < D.size - 1 := by omega
    have hpklt : par k < k := by unfold par; omega
    have hpks : par k < D.size - 1 := by omega
    rw [aget_pop _ _ hks, aget_pop _ _ hpks]
    exact bheap k h0k (by omega)
  · rw [hsnd, hfst]
    have hb_ne : D.toList ≠ [] := by
      intro hcon
      rw [hcon] at hlen
      simp at hlen
      omega
    have hdecomp := List.dropLast_concat_getLast hb_ne
    have hlast : D.toList.getLast hb_ne = aget a 0 := by
      rw [List.getLast_eq_getElem]
      rw [← hval, aget_eq_getElem _ _ (by omega)]
      congr 1 <;> rw [hlen]
    refine (List.perm_append_singleton _ _).symm.trans ?_
    have heq : D.pop.toList ++ [aget a 0] = D.toList := by
      rw [Array.toList_pop, ← hlast, hdecomp]
    rw [heq]
    exact bperm.trans (aswap_perm a 0 (a.size - 1))
  · intro x hx
    rw [hfst]
    apply root_min_mem a h x
    have hx2 : x ∈ D.toList := by
      rw [hsnd] at hx
      rw [Array.toList_pop] at hx
      exact List.dropLast_subset _ hx
    exact (bperm.trans (aswap_perm a 0 (a.size - 1))).mem_iff.mp hx2

theorem isHeap_empty : IsHeapN (#[] : Array Query) (#[] : Array Query).size := by
  intro j _ hj
  exact absurd hj (by simp)

theorem filterMap_all_some {α β : Type _} (f : α → Option β) (g : α → β) :
    ∀ (l : List α), (∀ a ∈ l, f a = some (g a)) → l.filterMap f = l.map g := by
  intro l
  induction l with
  | nil => intro _; rfl
  | cons a t ih =>
    intro h
    simp only [List.filterMap_cons, h a (List.mem_cons_self a t), List.map_cons]
    rw [ih (fun x hx => h x (List.mem_cons_of_mem a hx))]

theorem mapM_ok_of_all {α β : Type _} (f : α → Except Err β) (g : α → β) :
    ∀ (l : List α), (∀ a ∈ l, f a = Except.ok (g a)) →
      l.mapM f = Except.ok (l.map g) := by
  intro l
  induction l with
  | nil => intro _; rfl
  | cons a t ih =>
    intro h
    rw [List.mapM_cons, h a (List.mem_cons_self a t),
      ih (fun x hx => h x (List.mem_cons_of_mem a hx))]
    rfl

theorem mapM_error_mem {α β : Type _} (f : α → Except Err β) (e : Err) :
    ∀ (l : List α), l.mapM f = Except.error e → ∃ x ∈ l, f x = Except.error e := by
  intro l
  induction l with
  | nil =>
    intro h
    exact absurd h (by simp [List.mapM_nil]; intro hcon; cases hcon)
  | cons a t ih =>
    intro h
    rw [List.mapM_cons] at h
    cases hfa : f a with
    | error e2 =>
      rw [hfa] at h
      have he : e2 = e := by
        simp only [bind, Except.bind] at h
        cases h
        rfl
      exact ⟨a, List.mem_cons_self a t, by rw [hfa, he]⟩
    | ok b =>
      rw [hfa] at h
      simp only [bind, Except.bind] at h
      cases hmt : t.mapM f with
      | error e2 =>
        rw [hmt] at h
        simp only [bind, Except.bind] at h
        have he : e2 = e := by cases h; rfl
        obtain ⟨x, hx, hfx⟩ := ih (by rw [hmt, he])
        exact ⟨x, List.mem_cons_of_mem a hx, hfx⟩
      | ok bs =>
        rw [hmt] at h
        simp only [bind, Except.bind, pure, Except.pure] at h
        cases h

theorem PAE_true_error (eval : Evaluator) (script focus : String) (nodes : List Node)
    (caches : List NodeCache) (e : Err)
    (h : ParseAndExecute eval script focus nodes caches true = Except.error e) :
    ∃ e0, e = liftEvalErr e0 := by
  unfold ParseAndExecute at h
  rw [if_pos rfl] at h
  cases heval : eval script focus nodes caches with
  | ok bs =>
    rw [heval] at h
    cases h
  | error e0 =>
    rw [heval] at h
    cases h
    exact ⟨e0, rfl⟩

theorem PAE_false_eq (eval : Evaluator) (script focus : String) (nodes : List Node)
    (caches : List NodeCache) :
    ParseAndExecute eval script focus nodes caches false = Except.error Err.notCached := by
  unfold ParseAndExecute
  rfl

theorem liftEvalErr_ne_notCached (e0 : EvalErr) : liftEvalErr e0 ≠ Err.notCached := by
  cases e0 <;> simp [liftEvalErr]

theorem conv_error_shape (n : Node) (e : Err) (h : nodeToServiceNode n = Except.error e) :
    e = Err.marshalErr := by
  unfold nodeToServiceNode jsonMarshal at h
  by_cases hm : n.Metadata.marshalOk <;> simp [hm] at h
  exact h.symm

theorem conv_ok_of_marshal (n : Node) (h : n.Metadata.marshalOk = true) :
    nodeToServiceNode n = Except.ok (serviceNodeOf n) := by
  unfold nodeToServiceNode jsonMarshal serviceNodeOf
  rw [if_pos h]

theorem toArray_sorted (bs : Bitset) : List.Sorted (· ≤ ·) (toArray bs) := by
  unfold toArray
  exact Quot.inductionOn bs.val (fun l => List.sorted_insertionSort _ l)

theorem toArray_perm (bs : Bitset) :
    ∀ (l : List Nat), bs.val = Quot.mk _ l → (toArray bs).Perm l := by
  intro l hl
  unfold toArray
  rw [hl]
  exact List.perm_insertionSort _ l

theorem mem_toArray (bs : Bitset) (x : Nat) : x ∈ toArray bs ↔ x ∈ bs := by
  have hmem : (x ∈ bs) = (x ∈ bs.val) := propext Finset.mem_def
  rw [hmem]
  unfold toArray
  exact Quot.inductionOn bs.val (fun l => by
    constructor
    · intro h
      exact (List.perm_insertionSort _ l).mem_iff.mp h
    · intro h
      exact (List.perm_insertionSort _ l).mem_iff.mpr h)

theorem toArray_nodup (bs : Bitset) : (toArray bs).Nodup := by
  have hnd := bs.nodup
  unfold toArray
  revert hnd
  exact Quot.inductionOn bs.val (fun l hnd =>
    ((List.perm_insertionSort _ l).nodup_iff).mpr hnd)

theorem toArray_sorted_lt (bs : Bitset) : List.Sorted (· < ·) (toArray bs) := by
  have h1 := toArray_sorted bs
  have h2 := toArray_nodup bs
  unfold List.Sorted at h1 ⊢
  unfold List.Nodup at h2
  exact (h1.and h2).imp (fun h => lt_of_le_of_ne h.1 h.2)

theorem popAllF_spec (fuel : Nat) : ∀ (a : Array Query), a.size = fuel →
    IsHeapN a a.size →
    (popAllF fuel a).Perm a.toList ∧
      List.Pairwise (fun p q => qKey p ≤ qKey q) (popAllF fuel a) := by
  induction fuel with
  | zero =>
    intro a hsz _
    have : a.toList = [] := List.eq_nil_of_length_eq_zero (by simpa using hsz)
    rw [popAllF, this]
    exact ⟨List.Perm.refl _, List.Pairwise.nil⟩
  | succ f ih =>
    intro a hsz hheap
    have h0 : 0 < a.size := by omega
    obtain ⟨p1, p2, p3, p4⟩ := hpop_spec a h0 hheap
    obtain ⟨q1, q2⟩ := ih (hpop a).2 (by omega) p2
    rw [popAllF]
    constructor
    · exact (List.Perm.cons _ q1).trans p3
    · refine List.Pairwise.cons ?_ q2
      intro y hy
      exact p4 y (q1.mem_iff.mp hy)

theorem leaderboard_success_eq (ctx : Bool) (eval : Evaluator) (st : Storage)
    (script : String) (K : Nat) (arr : List Node) (errSeen : Bool)
    (hdirty : st.dirty = [])
    (hKc : (K == 0 && !(namedNodes st).isEmpty) = false)
    (hok : ∀ n ∈ arr, ∃ bs, eval script n.Name (getNodes st (getAllKeys st))
      (getCaches st (getAllKeys st)) = Except.ok bs)
    (hmarshal : ∀ n ∈ arr, n.Metadata.marshalOk = true) :
    CustomLeaderboard ctx eval st script K arr errSeen =
      some (Except.ok (((popAllF
        ((arr.map (fun n => Query.mk n (evalOutput eval st script n))).foldl hpush #[]).size
        ((arr.map (fun n => Query.mk n (evalOutput eval st script n))).foldl hpush #[])).map
        (fun q => SQuery.mk (serviceNodeOf q.Node) q.Output)).reverse)) := by
  have hdirtyb : (toBeCached st).isEmpty = true := by simp [toBeCached, hdirty]
  have hfail : (arr.map (fun n => (n, ParseAndExecute eval script n.Name
      (getNodes st (getAllKeys st)) (getCaches st (getAllKeys st)) true))).filterMap
      (fun p => match p.2 with | .error e => some e | .ok _ => none) = [] := by
    rw [List.filterMap_map, List.filterMap_eq_nil_iff]
    intro n hn
    obtain ⟨bs, hbs⟩ := hok n hn
    simp [Function.comp, ParseAndExecute, hbs]
  have hsucc : (arr.map (fun n => (n, ParseAndExecute eval script n.Name
      (getNodes st (getAllKeys st)) (getCaches st (getAllKeys st)) true))).filterMap
      (fun p => match p.2 with
        | .ok bs => some { Node := p.1, Output := toArray bs }
        | .error _ => none) =
      arr.map (fun n => Query.mk n (evalOutput eval st script n)) := by
    rw [List.filterMap_map]
    apply filterMap_all_some
    intro n hn
    obtain ⟨bs, hbs⟩ := hok n hn
    simp [Function.comp, ParseAndExecute, hbs, evalOutput]
  have hconv : ∀ q ∈ popAllF
      ((arr.map (fun n => Query.mk n (evalOutput eval st script n))).foldl hpush #[]).size
      ((arr.map (fun n => Query.mk n (evalOutput eval st script n))).foldl hpush #[]),
      (nodeToServiceNode q.Node).map (fun sn => SQuery.mk sn q.Output)
        = Except.ok (SQuery.mk (serviceNodeOf q.Node) q.Output) := by
    intro q hq
    obtain ⟨hheap, hperm1⟩ := foldl_hpush_spec
      (arr.map (fun n => Query.mk n (evalOutput eval st script n))) #[] isHeap_empty
    obtain ⟨hperm2, _⟩ := popAllF_spec _ _ rfl hheap
    have hqS : q ∈ arr.map (fun n => Query.mk n (evalOutput eval st script n)) := by
      have h1 := (hperm2.trans hperm1).mem_iff.mp hq
      simpa using h1
    obtain ⟨n, hn, hqn⟩ := List.mem_map.mp hqS
    have hmOk : q.Node.Metadata.marshalOk = true := by
      rw [← hqn]
      exact hmarshal n hn
    rw [conv_ok_of_marshal q.Node hmOk]
    rfl
  have hmapM := mapM_ok_of_all
    (fun (q : Query) => (nodeToServiceNode q.Node).map (fun sn => SQuery.mk sn q.Output))
    (fun (q : Query) => SQuery.mk (serviceNodeOf q.Node) q.Output) _ hconv
  unfold CustomLeaderboard
  rw [if_pos hdirtyb]
  have hKc2 : (K == 0 && !((getNodes st (getAllKeys st)).filter
      (fun n => !(n.Name == ""))).isEmpty) = false := hKc
  simp only [hKc2, Bool.false_eq_true, if_false, hdirtyb, hfail, hsucc, hmapM]

/-- C3: `CustomLeaderboard` fails with the `NotCached` error exactly when the
dirty set is non-empty.  The gate is the first storage call of the handler:
when it fires, the result is the `NotCached` error irrespective of the stored
nodes, the evaluator, the budget or the schedule (so no node load or
evaluation can have influenced it); when the dirty set is empty, no code path
of the handler produces `NotCached`. -/
theorem C3_leaderboard_notCached_iff (ctx : Bool) (eval : Evaluator) (st : Storage)
    (script : String) (K : Nat) (arr : List Node) (errSeen : Bool) :
    CustomLeaderboard ctx eval st script K arr errSeen
        = some (Except.error Err.notCached) ↔ st.dirty ≠ [] := by
  constructor
  · intro h hdirty
    have hdirtyb : (toBeCached st).isEmpty = true := by simp [toBeCached, hdirty]
    unfold CustomLeaderboard at h
    rw [if_pos hdirtyb] at h
    simp only [hdirtyb] at h
    split at h
    · exact Option.noConfusion h
    · split at h
      · next e es heq =>
        simp only [Option.some.injEq, Except.error.injEq] at h
        have he : e ∈ (arr.map (fun n => (n, ParseAndExecute eval script n.Name
            (getNodes st (getAllKeys st)) (getCaches st (getAllKeys st)) true))).filterMap
            (fun p => match p.2 with | .error e => some e | .ok _ => none) := by
          rw [heq]
          exact List.mem_cons_self e es
        obtain ⟨p, hp, hfp⟩ := List.mem_filterMap.mp he
        obtain ⟨n, _, hpn⟩ := List.mem_map.mp hp
        cases hPAE : ParseAndExecute eval script n.Name (getNodes st (getAllKeys st))
            (getCaches st (getAllKeys st)) true with
        | ok bs =>
          rw [← hpn, hPAE] at hfp
          exact Option.noConfusion hfp
        | error e2 =>
          rw [← hpn, hPAE] at hfp
          simp only [Option.some.injEq] at hfp
          obtain ⟨e0, he0⟩ := PAE_true_error _ _ _ _ _ _ hPAE
          exact liftEvalErr_ne_notCached e0 (by rw [← he0, hfp, h])
      · split at h
        · next e heq =>
          simp only [Option.some.injEq, Except.error.injEq] at h
          obtain ⟨x, _, hfx⟩ := mapM_error_mem _ _ _ heq
          cases hcv : nodeToServiceNode x.Node with
          | ok sn =>
            rw [hcv] at hfx
            exact Except.noConfusion hfx
          | error e2 =>
            rw [hcv] at hfx
            have he2 : e2 = e := by
              simp only [Except.map] at hfx
              exact Except.error.inj hfx
            have hm := conv_error_shape x.Node e2 hcv
            rw [he2, h] at hm
            exact Err.noConfusion hm
        · next l heq =>
          simp at h
  · intro hdirty
    have hb : (toBeCached st).isEmpty = false := by
      cases hd : st.dirty with
      | nil => exact absurd hd hdirty
      | cons x xs => simp [toBeCached, hd]
    unfold CustomLeaderboard
    simp only [hb, Bool.false_eq_true, if_false]

/-- C4: the `Query` handler fails with the `NotCached` error exactly when the
dirty set is non-empty.  The handler reads `ToBeCached` and hands the
emptiness flag to `ParseAndExecute`, which (modelled from the spec) checks it
at its entry, before evaluating the script; no other code path of the
handler produces `NotCached`. -/
theorem C4_query_notCached_iff (eval : Evaluator) (st : Storage) (script : String) :
    QueryOp eval st (some script) = Except.error Err.notCached ↔ st.dirty ≠ [] := by
  constructor
  · intro h hdirty
    have hdirtyb : (toBeCached st).isEmpty = true := by simp [toBeCached, hdirty]
    unfold QueryOp at h
    simp only [hdirtyb] at h
    split at h
    · next e heq =>
      simp only [Except.error.injEq] at h
      obtain ⟨e0, he0⟩ := PAE_true_error _ _ _ _ _ _ heq
      exact liftEvalErr_ne_notCached e0 (by rw [← he0, h])
    · next result heq =>
      obtain ⟨x, _, hfx⟩ := mapM_error_mem _ _ _ h
      have hm := conv_error_shape x _ hfx
      exact Err.noConfusion hm
  · intro hdirty
    have hb : (toBeCached st).isEmpty = false := by
      cases hd : st.dirty with
      | nil => exact absurd hd hdirty
      | cons x xs => simp [toBeCached, hd]
    unfold QueryOp
    simp only [hb, Bool.false_eq_true]
    rw [PAE_false_eq]

theorem leaderboard_success_props (ctx : Bool) (eval : Evaluator) (st : Storage)
    (script : String) (K : Nat) (arr : List Node) (errSeen : Bool)
    (hdirty : st.dirty = [])
    (hperm : arr.Perm (namedNodes st))
    (hK : K ≠ 0)
    (hok : ∀ n ∈ arr, ∃ bs, eval script n.Name (getNodes st (getAllKeys st))
      (getCaches st (getAllKeys st)) = Except.ok bs)
    (hmarshal : ∀ n ∈ arr, n.Metadata.marshalOk = true) :
    ∃ l : List SQuery,
      CustomLeaderboard ctx eval st script K arr errSeen = some (Except.ok l) ∧
      List.Pairwise (fun p q => q.Output.length ≤ p.Output.length) l ∧
      (l.map (fun q => (q.Node.Name, q.Output))).Perm
        ((namedNodes st).map (fun n => (n.Name, evalOutput eval st script n))) := by
  have hKc : (K == 0 && !(namedNodes st).isEmpty) = false := by simp [hK]
  have heq := leaderboard_success_eq ctx eval st script K arr errSeen hdirty hKc hok hmarshal
  obtain ⟨hheap, hperm1⟩ := foldl_hpush_spec
    (arr.map (fun n => Query.mk n (evalOutput eval st script n))) #[] isHeap_empty
  obtain ⟨hperm2, hsorted⟩ := popAllF_spec _ _ rfl hheap
  have hpop_perm : (popAllF
      ((arr.map (fun n => Query.mk n (evalOutput eval st script n))).foldl hpush #[]).size
      ((arr.map (fun n => Query.mk n (evalOutput eval st script n))).foldl hpush #[])).Perm
      (arr.map (fun n => Query.mk n (evalOutput eval st script n))) := by
    refine hperm2.trans ?_
    simpa using hperm1
  refine ⟨_, heq, ?_, ?_⟩
  · rw [List.pairwise_reverse, List.pairwise_map]
    exact hsorted
  · have h2 : ((popAllF
        ((arr.map (fun n => Query.mk n (evalOutput eval st script n))).foldl hpush #[]).size
        ((arr.map (fun n => Query.mk n (evalOutput eval st script n))).foldl hpush #[])).map
        (fun q => SQuery.mk (serviceNodeOf q.Node) q.Output)).map
        (fun q => (q.Node.Name, q.Output)) =
        (popAllF
        ((arr.map (fun n => Query.mk n (evalOutput eval st script n))).foldl hpush #[]).size
        ((arr.map (fun n => Query.mk n (evalOutput eval st script n))).foldl hpush #[])).map
        (fun q => (q.Node.Name, q.Output)) := by
      rw [List.map_map]
      rfl
    have h3 : (arr.map (fun n => Query.mk n (evalOutput eval st script n))).map
        (fun q => (q.Node.Name, q.Output)) =
        arr.map (fun n => (n.Name, evalOutput eval st script n)) := by
      rw [List.map_map]
      rfl
    rw [List.map_reverse, h2]
    refine (List.reverse_perm _).trans ?_
    refine ((hpop_perm.map _).trans ?_)
    rw [h3]
    exact hperm.map _

/-- C1 (amended): when the dirty set is empty, the budget is positive, the
workers complete in some order `arr` covering exactly the named nodes, and
every evaluation succeeds, `CustomLeaderboard` returns one `(node, output)`
pair per named node sorted by output cardinality descending.  Ties between
equal cardinalities follow the heap extraction order, which depends on the
completion order `arr` — not on the node names (see the counterexample). -/
theorem C1_leaderboard_sorted_by_cardinality (ctx : Bool) (eval : Evaluator) (st : Storage)
    (script : String) (K : Nat) (arr : List Node) (errSeen : Bool)
    (hdirty : st.dirty = [])
    (hperm : arr.Perm (namedNodes st))
    (hK : K ≠ 0)
    (hok : ∀ n ∈ arr, ∃ bs, eval script n.Name (getNodes st (getAllKeys st))
      (getCaches st (getAllKeys st)) = Except.ok bs)
    (hmarshal : ∀ n ∈ arr, n.Metadata.marshalOk = true) :
    ∃ l : List SQuery,
      CustomLeaderboard ctx eval st script K arr errSeen = some (Except.ok l) ∧
      List.Pairwise (fun p q => q.Output.length ≤ p.Output.length) l ∧
      (l.map (fun q => (q.Node.Name, q.Output))).Perm
        ((namedNodes st).map (fun n => (n.Name, evalOutput eval st script n))) :=
  leaderboard_success_props ctx eval st script K arr errSeen hdirty hperm hK hok hmarshal

/-- C1 witness: a concrete cached two-node storage, budget 1, empty-bitset
evaluator; the amended theorem applies and all hypotheses hold. -/
theorem C1_witness :
    stBC.dirty = [] ∧ ([nB, nC] : List Node).Perm (namedNodes stBC) ∧ (1 : Nat) ≠ 0 ∧
      (∀ n ∈ ([nB, nC] : List Node), ∃ bs, evalEmpty "s" n.Name
        (getNodes stBC (getAllKeys stBC)) (getCaches stBC (getAllKeys stBC))
          = Except.ok bs) ∧
      (∀ n ∈ ([nB, nC] : List Node), n.Metadata.marshalOk = true) ∧
      (∃ l : List SQuery,
        CustomLeaderboard false evalEmpty stBC "s" 1 [nB, nC] false
          = some (Except.ok l) ∧
        List.Pairwise (fun p q => q.Output.length ≤ p.Output.length) l ∧
        (l.map (fun q => (q.Node.Name, q.Output))).Perm
          ((namedNodes stBC).map (fun n => (n.Name, evalOutput evalEmpty stBC "s" n)))) := by
  have hn : namedNodes stBC = [nB, nC] := by decide
  refine ⟨rfl, by rw [hn], by omega, fun n _ => ⟨∅, rfl⟩, by decide, ?_⟩
  exact C1_leaderboard_sorted_by_cardinality false evalEmpty stBC "s" 1 [nB, nC] false
    rfl (by rw [hn]) (by omega) (fun n _ => ⟨∅, rfl⟩) (by decide)

/-- C1 counterexample: with two named nodes `B`, `C` whose outputs have equal
cardinality, the completion order `[B, C]` yields the result order `C, B`
(violating the claimed ascending-name tie-break, since the name of `B` precedes
the name of `C`), while the completion order `[C, B]` yields `B, C` — the same graph
and script produce two different orderings, refuting determinism. -/
theorem C1_counterexample :
    CustomLeaderboard false evalEmpty stBC "s" 1 [nB, nC] false
      = some (Except.ok [SQuery.mk (serviceNodeOf nC) [], SQuery.mk (serviceNodeOf nB) []]) ∧
    CustomLeaderboard false evalEmpty stBC "s" 1 [nC, nB] false
      = some (Except.ok [SQuery.mk (serviceNodeOf nB) [], SQuery.mk (serviceNodeOf nC) []]) ∧
    nB.Name.data = ['B'] ∧ nC.Name.data = ['C'] ∧ ('B' : Char) < 'C' := by
  refine ⟨by decide, by decide, by decide, by decide, by decide⟩

/-- C2: the evaluation of node `B` fails, but the failure reaches the error
channel only after the single nonblocking check of the handler (`errSeen = false`):
the error is lost and a partial success list containing only `A` is returned.
Had the failure been delivered before the check (`errSeen = true`), the same
input would return the error. -/
theorem C2_error_after_check_is_lost :
    CustomLeaderboard false evalFailB stAB "s" 1 [nA, nB] false
      = some (Except.ok [SQuery.mk (serviceNodeOf nA) []]) ∧
    CustomLeaderboard false evalFailB stAB "s" 1 [nA, nB] true
      = some (Except.error (Err.unknownNode "B")) := by
  exact ⟨by decide, by decide⟩

/-- C5: `CustomLeaderboard` performs no validation of the concurrency budget.
With `K = 0` and a named node the unbuffered semaphore send blocks before the
receiving worker exists, so the call never returns (`none`); with no named
node it returns an empty success.  Neither is an `InvalidArgument` failure. -/
theorem C5_k_zero_hangs_or_succeeds :
    CustomLeaderboard false evalEmpty stA "s" 0 [nA] false = none ∧
    CustomLeaderboard false evalEmpty (Storage.mk [] [] []) "s" 0 [] false
      = some (Except.ok []) := by
  exact ⟨by decide, by decide⟩

/-- C6 (amended): the `CustomLeaderboard` handler never consults its
cancellation token — the result is identical whether or not the given
token is cancelled. -/
theorem C6_leaderboard_ignores_cancellation (c1 c2 : Bool) (eval : Evaluator)
    (st : Storage) (script : String) (K : Nat) (arr : List Node) (errSeen : Bool) :
    CustomLeaderboard c1 eval st script K arr errSeen
      = CustomLeaderboard c2 eval st script K arr errSeen := rfl

/-- C6 counterexample: a leaderboard call whose cancellation token is
cancelled runs to completion and returns the full result list — not the
cancellation error. -/
theorem C6_counterexample :
    CustomLeaderboard true evalEmpty stA "s" 1 [nA] false
      = some (Except.ok [SQuery.mk (serviceNodeOf nA) []]) ∧
    (some (Except.ok [SQuery.mk (serviceNodeOf nA) []]) :
        Option (Except Err (List SQuery))) ≠ some (Except.error Err.cancelled) := by
  exact ⟨by decide, by decide⟩

/-- C7: on the success path `CustomLeaderboard` submits one evaluation per
stored node with a non-empty name (the completion order `arr` ranges over
exactly the named nodes) and the result list contains exactly one
`(node, output)` pair per named node; empty-named nodes are skipped. -/
theorem C7_one_result_per_named_node (ctx : Bool) (eval : Evaluator) (st : Storage)
    (script : String) (K : Nat) (arr : List Node) (errSeen : Bool)
    (hdirty : st.dirty = [])
    (hperm : arr.Perm (namedNodes st))
    (hK : K ≠ 0)
    (hok : ∀ n ∈ arr, ∃ bs, eval script n.Name (getNodes st (getAllKeys st))
      (getCaches st (getAllKeys st)) = Except.ok bs)
    (hmarshal : ∀ n ∈ arr, n.Metadata.marshalOk = true) :
    ∃ l : List SQuery,
      CustomLeaderboard ctx eval st script K arr errSeen = some (Except.ok l) ∧
      (l.map (fun q => (q.Node.Name, q.Output))).Perm
        ((namedNodes st).map (fun n => (n.Name, evalOutput eval st script n))) ∧
      ∀ q ∈ l, (q.Node.Name == "") = false := by
  obtain ⟨l, hl, _, hpairs⟩ := leaderboard_success_props ctx eval st script K arr
    errSeen hdirty hperm hK hok hmarshal
  refine ⟨l, hl, hpairs, ?_⟩
  intro q hq
  have hmem : (q.Node.Name, q.Output) ∈ l.map (fun q => (q.Node.Name, q.Output)) :=
    List.mem_map_of_mem _ hq
  have hmem2 := hpairs.mem_iff.mp hmem
  obtain ⟨n, hn, hpair⟩ := List.mem_map.mp hmem2
  have hname : n.Name = q.Node.Name := congrArg Prod.fst hpair
  unfold namedNodes at hn
  have hfilter := List.mem_filter.mp hn
  have hne := hfilter.2
  rw [hname] at hne
  simpa using hne

/-- C7 witness: a cached storage holding named node `A` and an empty-named
node; the theorem applies and the result covers exactly `A`. -/
theorem C7_witness :
    stAE.dirty = [] ∧ ([nA] : List Node).Perm (namedNodes stAE) ∧ (1 : Nat) ≠ 0 ∧
      (∀ n ∈ ([nA] : List Node), ∃ bs, evalEmpty "s" n.Name
        (getNodes stAE (getAllKeys stAE)) (getCaches stAE (getAllKeys stAE))
          = Except.ok bs) ∧
      (∀ n ∈ ([nA] : List Node), n.Metadata.marshalOk = true) ∧
      (∃ l : List SQuery,
        CustomLeaderboard false evalEmpty stAE "s" 1 [nA] false
          = some (Except.ok l) ∧
        (l.map (fun q => (q.Node.Name, q.Output))).Perm
          ((namedNodes stAE).map (fun n => (n.Name, evalOutput evalEmpty stAE "s" n))) ∧
        ∀ q ∈ l, (q.Node.Name == "") = false) := by
  have hn : namedNodes stAE = [nA] := by decide
  refine ⟨rfl, by rw [hn], by omega, fun n _ => ⟨∅, rfl⟩, by decide, ?_⟩
  exact C7_one_result_per_named_node false evalEmpty stAE "s" 1 [nA] false
    rfl (by rw [hn]) (by omega) (fun n _ => ⟨∅, rfl⟩) (by decide)

/-- C3 witness: the iff applied to a concrete dirty storage. -/
theorem C3_witness :
    stDirty.dirty ≠ [] ∧
      CustomLeaderboard false evalEmpty stDirty "s" 1 [] false
        = some (Except.error Err.notCached) :=
  ⟨by decide,
    (C3_leaderboard_notCached_iff false evalEmpty stDirty "s" 1 [] false).mpr (by decide)⟩

/-- C4 witness: the iff applied to a concrete dirty storage. -/
theorem C4_witness :
    stDirty.dirty ≠ [] ∧
      QueryOp evalEmpty stDirty (some "s") = Except.error Err.notCached :=
  ⟨by decide, (C4_query_notCached_iff evalEmpty stDirty "s").mpr (by decide)⟩

/-- C8: the `Check` handler returns the status string `"ok"` for every
storage state and request, and never returns an error. -/
theorem C8_check_ok (st : Storage) (req : Unit) :
    Check st req = Except.ok { Status := "ok" } := rfl

/-- C9: a successful `NodeToServiceNode` conversion returns the direct
adjacency: `Dependencies` is the ascending array of the `Children` bitset and
`Dependents` the ascending array of the `Parents` bitset (not the transitive
caches, which the conversion never reads). -/
theorem C9_service_node_direct_adjacency (n : Node) (sn : ServiceNode)
    (h : nodeToServiceNode n = Except.ok sn) :
    sn.Dependencies = toArray n.Children ∧ sn.Dependents = toArray n.Parents ∧
      List.Sorted (· < ·) sn.Dependencies ∧ List.Sorted (· < ·) sn.Dependents ∧
      (∀ x, x ∈ sn.Dependencies ↔ x ∈ n.Children) ∧
      (∀ x, x ∈ sn.Dependents ↔ x ∈ n.Parents) := by
  unfold nodeToServiceNode at h
  cases hm : jsonMarshal n.Metadata with
  | error e =>
    rw [hm] at h
    cases h
  | ok d =>
    rw [hm] at h
    have hsn := (Except.ok.inj h).symm
    subst hsn
    exact ⟨rfl, rfl, toArray_sorted_lt _, toArray_sorted_lt _,
      fun x => mem_toArray _ _, fun x => mem_toArray _ _⟩

/-- C9 witness: the conversion of the concrete node `A` succeeds and the
theorem applies to it. -/
theorem C9_witness :
    nodeToServiceNode nA = Except.ok (serviceNodeOf nA) ∧
      ((serviceNodeOf nA).Dependencies = toArray nA.Children ∧
        (serviceNodeOf nA).Dependents = toArray nA.Parents ∧
        List.Sorted (· < ·) (serviceNodeOf nA).Dependencies ∧
        List.Sorted (· < ·) (serviceNodeOf nA).Dependents ∧
        (∀ x, x ∈ (serviceNodeOf nA).Dependencies ↔ x ∈ nA.Children) ∧
        (∀ x, x ∈ (serviceNodeOf nA).Dependents ↔ x ∈ nA.Parents)) :=
  ⟨by decide, C9_service_node_direct_adjacency nA (serviceNodeOf nA) (by decide)⟩

/-- C10: the `Query` handler returns the nil-request error on the nil
request, for every storage state and evaluator, touching nothing else. -/
theorem C10_query_nil_request (eval : Evaluator) (st : Storage) :
    QueryOp eval st none = Except.error Err.nilRequest := rfl

end MinefieldV1
